import Mathlib

/-!
Verification of the NewtonFractal renderer (`src/main.cpp` plus the ISPC
Newton kernel described by the specification).

Floating-point arithmetic of the source is modelled as exact arithmetic in a
linear ordered field: `ℚ` where the claims are evaluated concretely, `ℝ` for
the parts that use the transcendental `pow` (gamma correction) and `cos`/`sin`
(roots of unity).  C casts from floating point to integer types truncate
toward zero, modelled by `ctrunc`; the C `%` on `int` truncates toward zero,
modelled by `Int.tmod`.
-/

/-- An RGB triple; the source stores each channel as `unsigned char`.
We keep the mathematical integer produced by the C cast. -/
structure RGB where
  r : ℤ
  g : ℤ
  b : ℤ
  deriving DecidableEq, Repr

/-- C-style cast from a floating value to an integer: truncation toward zero,
`(int)x` / `(unsigned char)x` in `main.cpp`. -/
def ctrunc {K : Type} [LinearOrderedField K] [FloorRing K] (x : K) : ℤ :=
  if 0 ≤ x then ⌊x⌋ else ⌈x⌉

/-- Function `hsv_to_rgb` from `src/main.cpp` lines 23-78.
`h`, `s`, `v` are the hue, saturation and value; the saturation-zero test,
the sector index `i = (int)(h * 6.0f)`, the fractional part `f`, the
intermediate intensities `p`, `q`, `t`, the `i %= 6` reduction and the
six-way `switch` (with `case 5` and `default` sharing a branch) are
transcribed directly. -/
def hsv_to_rgb {K : Type} [LinearOrderedField K] [FloorRing K] [DecidableEq K]
    (h s v : K) : RGB :=
  if s = 0 then
    ⟨ctrunc (v * 255), ctrunc (v * 255), ctrunc (v * 255)⟩
  else
    let i : ℤ := ctrunc (h * 6)
    let f : K := h * 6 - (i : K)
    let p : K := v * (1 - s)
    let q : K := v * (1 - s * f)
    let t : K := v * (1 - s * (1 - f))
    let i' : ℤ := Int.tmod i 6
    let v' : K := v * 255
    let p' : K := p * 255
    let q' : K := q * 255
    let t' : K := t * 255
    if i' = 0 then ⟨ctrunc v', ctrunc t', ctrunc p'⟩
    else if i' = 1 then ⟨ctrunc q', ctrunc v', ctrunc p'⟩
    else if i' = 2 then ⟨ctrunc p', ctrunc v', ctrunc t'⟩
    else if i' = 3 then ⟨ctrunc p', ctrunc q', ctrunc v'⟩
    else if i' = 4 then ⟨ctrunc t', ctrunc p', ctrunc v'⟩
    else ⟨ctrunc v', ctrunc p', ctrunc q'⟩

/-- The HSV value ("brightness") carried by an RGB triple: the maximum of the
three channels.  In the 6-sector conversion the maximal channel is the one
assigned `v`. -/
def RGB.valueChannel (c : RGB) : ℤ :=
  max c.r (max c.g c.b)

/-- The HSV→RGB conversion as §4.2 of the specification words it:
`i = floor(hue*6)` selects the sector, `f` is the fractional remainder,
`p = v*(1-s)`, `q = v*(1-s*f)`, `t = v*(1-s*(1-f))`, the six sectors assign
`(v,t,p)`, `(q,v,p)`, `(p,v,t)`, `(p,q,v)`, `(t,p,v)`, `(v,p,q)`, and each
channel is scaled to `[0,255]` and truncated (not rounded) to an integer. -/
def hsv_to_rgb_spec {K : Type} [LinearOrderedField K] [FloorRing K]
    (h s v : K) : RGB :=
  let i : ℤ := ⌊h * 6⌋
  let f : K := h * 6 - (i : K)
  let p : K := v * (1 - s)
  let q : K := v * (1 - s * f)
  let t : K := v * (1 - s * (1 - f))
  if i = 0 then ⟨ctrunc (v * 255), ctrunc (t * 255), ctrunc (p * 255)⟩
  else if i = 1 then ⟨ctrunc (q * 255), ctrunc (v * 255), ctrunc (p * 255)⟩
  else if i = 2 then ⟨ctrunc (p * 255), ctrunc (v * 255), ctrunc (t * 255)⟩
  else if i = 3 then ⟨ctrunc (p * 255), ctrunc (q * 255), ctrunc (v * 255)⟩
  else if i = 4 then ⟨ctrunc (t * 255), ctrunc (p * 255), ctrunc (v * 255)⟩
  else ⟨ctrunc (v * 255), ctrunc (p * 255), ctrunc (q * 255)⟩

/-- The per-pixel post-processing of `src/main.cpp` lines 138-161 (the
Colorizer): `root_index == -1` yields black, otherwise
`hue = root_index / n`, `saturation = 0.9`,
`value = pow(1 - iters / max_iterations, gamma)` and the pixel is
`hsv_to_rgb hue saturation value`.  The `float` arithmetic is idealised over
`ℝ`; `pow` is the real power `Real.rpow`. -/
noncomputable def colorize (n max_iterations : ℕ) (gamma : ℝ)
    (root_index : ℤ) (iters : ℕ) : RGB :=
  if root_index = -1 then ⟨0, 0, 0⟩
  else
    let hue : ℝ := (root_index : ℝ) / (n : ℝ)
    let saturation : ℝ := 9 / 10
    let value : ℝ := (1 - (iters : ℝ) / (max_iterations : ℝ)) ^ gamma
    hsv_to_rgb hue saturation value

/-- The RootSet computed in `src/main.cpp` lines 112-116:
`roots[k] = (cos(2*pi*k/n), sin(2*pi*k/n))` for `k = 0, …, n-1`. -/
noncomputable def rootSet (n : ℕ) : List (ℝ × ℝ) :=
  (List.range n).map fun k : ℕ =>
    let angle : ℝ := 2 * Real.pi * (k : ℝ) / (n : ℝ)
    (Real.cos angle, Real.sin angle)

/-! ### The Root Solver

The Newton-iteration kernel lives in `src/fractal.ispc`, which is not part of
the sources at hand (the Makefile compiles it separately); it is modelled
from §4.1 of the specification, over exact rationals. -/

/-- Modelled from the spec: the kernel's `Complex` struct (`float r, i`),
mirrored by `struct Complex` in `src/main.cpp` lines 13-15. -/
structure Cplx where
  re : ℚ
  im : ℚ
  deriving DecidableEq, Repr

/-- Complex multiplication, ordinary `(a+bi)` field arithmetic (spec §4.1). -/
def Cplx.mul (w z : Cplx) : Cplx :=
  ⟨w.re * z.re - w.im * z.im, w.re * z.im + w.im * z.re⟩

/-- Complex subtraction. -/
def Cplx.sub (w z : Cplx) : Cplx :=
  ⟨w.re - z.re, w.im - z.im⟩

/-- Squared magnitude `|z|²`. -/
def Cplx.normSq (z : Cplx) : ℚ :=
  z.re * z.re + z.im * z.im

/-- Complex division `w / z = w * conj z / |z|²`. -/
def Cplx.div (w z : Cplx) : Cplx :=
  ⟨(w.re * z.re + w.im * z.im) / Cplx.normSq z,
   (w.im * z.re - w.re * z.im) / Cplx.normSq z⟩

/-- Scaling by a natural number (for `f'(z) = n * z^(n-1)`). -/
def Cplx.smul (k : ℕ) (z : Cplx) : Cplx :=
  ⟨(k : ℚ) * z.re, (k : ℚ) * z.im⟩

/-- Power `z^k` by repeated complex multiplication (spec §4.1: "via repeated
complex multiplication — no transcendental calls"). -/
def Cplx.cpow (z : Cplx) : ℕ → Cplx
  | 0 => ⟨1, 0⟩
  | k + 1 => Cplx.mul (Cplx.cpow z k) z

/-- Modelled from the spec: `f(z) = z^n - 1` (§4.1 step 2). -/
def newtonF (n : ℕ) (z : Cplx) : Cplx :=
  Cplx.sub (Cplx.cpow z n) ⟨1, 0⟩

/-- Modelled from the spec: `f'(z) = n * z^(n-1)` (§4.1 step 2). -/
def newtonDeriv (n : ℕ) (z : Cplx) : Cplx :=
  Cplx.smul n (Cplx.cpow z (n - 1))

/-- Modelled from the spec (§4.1 steps 3-4): the index of the first root of
`rs` whose squared distance to `z` is below `tol_sq` — "iterate roots in
index order and stop at first match". -/
def findRootIdx (tol_sq : ℚ) (z : Cplx) : List Cplx → Option ℕ
  | [] => none
  | r :: rs =>
    if Cplx.normSq (Cplx.sub z r) < tol_sq then some 0
    else (findRootIdx tol_sq z rs).map (· + 1)

/-- Modelled from the spec (§4.1 step 2, §7): the Newton loop with `fuel`
remaining iterations out of a budget of `maxit`.  Each round computes
`f'(z)`; a numerically zero derivative terminates early with root index `-1`
(before the division is performed); otherwise `z ← z - f(z)/f'(z)` and the
updated iterate is tested against the roots, returning the first match
together with the number of iterations used so far.  Exhausting the budget
returns `(-1, maxit)`. -/
def newtonGo (rs : List Cplx) (n maxit : ℕ) (tol_sq : ℚ) :
    Cplx → ℕ → ℤ × ℕ
  | _, 0 => (-1, maxit)
  | z, fuel + 1 =>
    if Cplx.normSq (newtonDeriv n z) = 0 then (-1, maxit - (fuel + 1))
    else
      let z' := Cplx.sub z (Cplx.div (newtonF n z) (newtonDeriv n z))
      match findRootIdx tol_sq z' rs with
      | some k => ((k : ℤ), maxit - fuel)
      | none => newtonGo rs n maxit tol_sq z' fuel

/-- Modelled from the spec: the Root Solver's per-pixel iteration, run with
the full iteration budget. -/
def newtonSolve (rs : List Cplx) (n maxit : ℕ) (tol_sq : ℚ) (z : Cplx) :
    ℤ × ℕ :=
  newtonGo rs n maxit tol_sq z maxit

/-- The render configuration of spec §3 (viewport bounds included;
`src/main.cpp` lines 83-88 and 108). -/
structure RenderConfig where
  n : ℕ
  width : ℕ
  height : ℕ
  max_iterations : ℕ
  tolerance : ℚ
  x_min : ℚ
  x_max : ℚ
  y_min : ℚ
  y_max : ℚ
  deriving DecidableEq, Repr

/-- Well-formedness of a configuration, as spec §7 words it:
"n≥1, width/height≥1, max_iterations≥1, tolerance>0". -/
def RenderConfig.wellformed (c : RenderConfig) : Prop :=
  1 ≤ c.n ∧ 1 ≤ c.width ∧ 1 ≤ c.height ∧ 1 ≤ c.max_iterations ∧
    0 < c.tolerance

instance (c : RenderConfig) : Decidable c.wellformed := by
  unfold RenderConfig.wellformed; infer_instance

/-- Modelled from the spec (§4.1 step 1; the mapping is implemented in the
absent `src/fractal.ispc`): `z.re = x_min + px/(width-1) * (x_max-x_min)`,
`z.im = y_min + py/(height-1) * (y_max-y_min)`. -/
def pixelToComplex (c : RenderConfig) (px py : ℕ) : Cplx :=
  ⟨c.x_min + (px : ℚ) / ((c.width : ℚ) - 1) * (c.x_max - c.x_min),
   c.y_min + (py : ℚ) / ((c.height : ℚ) - 1) * (c.y_max - c.y_min)⟩

/-- The denominators of the pixel-to-complex mapping are nonzero — the
"no division by zero" reading of spec §4.1 step 1. -/
def RenderConfig.mappingDefined (c : RenderConfig) : Prop :=
  ((c.width : ℚ) - 1 ≠ 0) ∧ ((c.height : ℚ) - 1 ≠ 0)

instance (c : RenderConfig) : Decidable c.mappingDefined := by
  unfold RenderConfig.mappingDefined; infer_instance

/-- A 1×1 render configuration (n = 1, width = height = 1,
max_iterations = 1, tolerance = 1, default viewport `[-5,5]×[-5,5]`). -/
def onePixelConfig : RenderConfig :=
  ⟨1, 1, 1, 1, 1, -5, 5, -5, 5⟩

/-! ### Theorems -/

/-- Truncation `ctrunc` agrees with the floor on nonnegative arguments. -/
theorem ctrunc_of_nonneg {K : Type} [LinearOrderedField K] [FloorRing K]
    {x : K} (hx : 0 ≤ x) : ctrunc x = ⌊x⌋ :=
  if_pos hx

/-- Truncation `ctrunc` is monotone on nonnegative arguments. -/
theorem ctrunc_mono_of_nonneg {K : Type} [LinearOrderedField K] [FloorRing K]
    {x y : K} (hx : 0 ≤ x) (hxy : x ≤ y) : ctrunc x ≤ ctrunc y := by
  rw [ctrunc_of_nonneg hx, ctrunc_of_nonneg (hx.trans hxy)]
  exact Int.floor_le_floor hxy

/-- At value 0 every sector of the conversion produces black. -/
theorem hsv_to_rgb_value_zero {K : Type} [LinearOrderedField K] [FloorRing K]
    [DecidableEq K] (h s : K) : hsv_to_rgb h s 0 = ⟨0, 0, 0⟩ := by
  unfold hsv_to_rgb ctrunc
  split_ifs <;> simp

/-- C2: the Colorizer maps `root_index = -1` to black, for every iteration
count, gamma, `n` and iteration budget. -/
theorem colorize_unconverged_black (n m : ℕ) (γ : ℝ) (it : ℕ) :
    colorize n m γ (-1) it = ⟨0, 0, 0⟩ := by
  simp [colorize]

/-- C1: for a converged pixel (`root_index ≥ 0`) the Colorizer produces
exactly `hsv_to_rgb (root_index/n) 0.9 ((1 - iters/max_iterations)^gamma)`;
in particular the color is a function of `(root_index, iters, n,
max_iterations, gamma)` alone, as the right-hand side mentions nothing
else. -/
theorem colorize_formula (n m : ℕ) (γ : ℝ) (ri : ℤ) (it : ℕ)
    (hri : 0 ≤ ri) :
    colorize n m γ ri it =
      hsv_to_rgb ((ri : ℝ) / (n : ℝ)) (9 / 10)
        ((1 - (it : ℝ) / (m : ℝ)) ^ γ) := by
  have h : ri ≠ -1 := by omega
  simp [colorize, h]

theorem colorize_formula_witness :
    (0 : ℤ) ≤ 2 ∧
      colorize 5 100 4 2 30 =
        hsv_to_rgb (((2 : ℤ) : ℝ) / ((5 : ℕ) : ℝ)) (9 / 10)
          ((1 - ((30 : ℕ) : ℝ) / ((100 : ℕ) : ℝ)) ^ (4 : ℝ)) :=
  ⟨by decide, colorize_formula 5 100 4 2 30 (by decide)⟩

/-- C4: zero saturation short-circuits to a gray triple, all three channels
`⌊v*255⌋`, independently of the hue. -/
theorem hsv_saturation_zero_gray (h v : ℚ) (hv0 : 0 ≤ v) (hv1 : v ≤ 1) :
    hsv_to_rgb h 0 v = ⟨⌊v * 255⌋, ⌊v * 255⌋, ⌊v * 255⌋⟩ ∧
      ∀ h2 : ℚ, hsv_to_rgb h 0 v = hsv_to_rgb h2 0 v := by
  have hnn : (0 : ℚ) ≤ v * 255 := by positivity
  constructor
  · simp [hsv_to_rgb, ctrunc_of_nonneg hnn]
  · intro h2
    simp [hsv_to_rgb]

theorem hsv_saturation_zero_gray_witness :
    hsv_to_rgb (7 : ℚ) 0 1 = ⟨⌊(1 : ℚ) * 255⌋, ⌊(1 : ℚ) * 255⌋, ⌊(1 : ℚ) * 255⌋⟩ ∧
      ∀ h2 : ℚ, hsv_to_rgb (7 : ℚ) 0 1 = hsv_to_rgb h2 0 1 :=
  hsv_saturation_zero_gray 7 1 zero_le_one (le_refl 1)

/-- C10: a pixel that converged using exactly `max_iterations` iterations is
colored black by the Colorizer (its value term is `0^gamma = 0`), and is
therefore indistinguishable from an unconverged pixel. -/
theorem colorize_max_iter_black (n m : ℕ) (γ : ℝ) (ri : ℤ) (j : ℕ)
    (hm : 1 ≤ m) (hγ : 0 < γ) (hri : 0 ≤ ri) (hrn : ri < (n : ℤ)) :
    colorize n m γ ri m = ⟨0, 0, 0⟩ ∧
      colorize n m γ ri m = colorize n m γ (-1) j := by
  have h : ri ≠ -1 := by omega
  have hm0 : ((m : ℝ)) ≠ 0 := by
    have : (0 : ℝ) < (m : ℝ) := by exact_mod_cast hm
    exact ne_of_gt this
  have hv : (1 - (m : ℝ) / (m : ℝ)) ^ γ = (0 : ℝ) := by
    rw [div_self hm0, sub_self, Real.zero_rpow (ne_of_gt hγ)]
  have h1 : colorize n m γ ri m = ⟨0, 0, 0⟩ := by
    simp only [colorize, if_neg h, hv]
    exact hsv_to_rgb_value_zero _ _
  exact ⟨h1, by rw [h1]; simp [colorize]⟩

theorem colorize_max_iter_black_witness :
    colorize 1 1 1 0 1 = ⟨0, 0, 0⟩ ∧
      colorize 1 1 1 0 1 = colorize 1 1 1 (-1) 0 :=
  colorize_max_iter_black 1 1 1 0 0 (by decide) zero_lt_one (by decide)
    (by decide)

/-- C7: for every `n ≥ 1` the RootSet has exactly `n` elements, its `k`-th
element is `(cos(2πk/n), sin(2πk/n))`, and every element has unit
magnitude. -/
theorem rootSet_spec (n : ℕ) (hn : 1 ≤ n) :
    (rootSet n).length = n ∧
    (∀ k : ℕ, k < n →
      (rootSet n)[k]? =
        some (Real.cos (2 * Real.pi * (k : ℝ) / (n : ℝ)),
              Real.sin (2 * Real.pi * (k : ℝ) / (n : ℝ)))) ∧
    (∀ p ∈ rootSet n, p.1 ^ 2 + p.2 ^ 2 = 1) := by
  refine ⟨by simp [rootSet], ?_, ?_⟩
  · intro k hk
    simp [rootSet, List.getElem?_map, List.getElem?_range, hk]
  · intro p hp
    simp only [rootSet, List.mem_map, List.mem_range] at hp
    obtain ⟨k, hk, rfl⟩ := hp
    simpa using Real.cos_sq_add_sin_sq _

theorem rootSet_spec_witness :
    (rootSet 3).length = 3 ∧
    (∀ k : ℕ, k < 3 →
      (rootSet 3)[k]? =
        some (Real.cos (2 * Real.pi * (k : ℝ) / ((3 : ℕ) : ℝ)),
              Real.sin (2 * Real.pi * (k : ℝ) / ((3 : ℕ) : ℝ)))) ∧
    (∀ p ∈ rootSet 3, p.1 ^ 2 + p.2 ^ 2 = 1) :=
  rootSet_spec 3 (by decide)

/-- C3: for hue ∈ `[0,1)`, positive saturation and value ∈ `[0,1]` the
source's `hsv_to_rgb` coincides with the specification's 6-sector algorithm
(floor-selected sector, fractional remainder, `p`/`q`/`t` fading terms, the
fixed channel table, truncating scale to `[0,255]`), and in particular
`hsv_to_rgb(0, 0.9, 1.0) = (255, 25, 25)`. -/
theorem hsv_to_rgb_matches_spec :
    (∀ h s v : ℚ, 0 ≤ h → h < 1 → 0 < s → 0 ≤ v → v ≤ 1 →
      hsv_to_rgb h s v = hsv_to_rgb_spec h s v) ∧
    hsv_to_rgb (0 : ℚ) (9 / 10) 1 = ⟨255, 25, 25⟩ := by
  constructor
  · intro h s v hh0 hh1 hs hv0 hv1
    have hs' : s ≠ 0 := ne_of_gt hs
    have h6 : (0 : ℚ) ≤ h * 6 := by positivity
    have hct : ctrunc (h * 6) = ⌊h * 6⌋ := ctrunc_of_nonneg h6
    have hi0 : 0 ≤ ⌊h * 6⌋ := Int.floor_nonneg.mpr h6
    have hi6 : ⌊h * 6⌋ < 6 := by
      have hlt : h * 6 < ((6 : ℤ) : ℚ) := by push_cast; linarith
      exact Int.floor_lt.mpr hlt
    have htm : Int.tmod ⌊h * 6⌋ 6 = ⌊h * 6⌋ := by
      set i := ⌊h * 6⌋ with hidef
      interval_cases i <;> decide
    simp only [hsv_to_rgb, hsv_to_rgb_spec, if_neg hs', hct, htm]
  · norm_num [hsv_to_rgb, ctrunc]

theorem hsv_to_rgb_matches_spec_witness :
    hsv_to_rgb (0 : ℚ) 1 1 = hsv_to_rgb_spec (0 : ℚ) 1 1 :=
  hsv_to_rgb_matches_spec.1 0 1 1 (le_refl 0) zero_lt_one zero_lt_one
    zero_le_one (le_refl 1)

/-- C5 fails as stated: the 1×1 configuration is well-formed in the sense of
spec §7 (`n ≥ 1`, `width/height ≥ 1`, `max_iterations ≥ 1`,
`tolerance > 0`), yet the pixel-to-complex mapping divides by
`width - 1 = 0`, and the right-edge pixel `px = width - 1 = 0` does not land
on `x_max`. -/
theorem pixel_mapping_division_by_zero :
    onePixelConfig.wellformed ∧ ¬ onePixelConfig.mappingDefined ∧
      (pixelToComplex onePixelConfig (onePixelConfig.width - 1) 0).re ≠
        onePixelConfig.x_max := by
  refine ⟨?_, ?_, ?_⟩
  · exact ⟨le_refl 1, le_refl 1, le_refl 1, le_refl 1, zero_lt_one⟩
  · intro hd
    exact hd.1 (by norm_num [onePixelConfig])
  · norm_num [pixelToComplex, onePixelConfig]

/-- C5 amended (width and height at least 2): the mapping's denominators are
nonzero and the edge pixels land exactly on the viewport bounds. -/
theorem pixel_mapping_wellformed (c : RenderConfig) (hc : c.wellformed)
    (hw : 2 ≤ c.width) (hh : 2 ≤ c.height) :
    c.mappingDefined ∧
    (∀ py : ℕ, (pixelToComplex c 0 py).re = c.x_min) ∧
    (∀ px : ℕ, (pixelToComplex c px 0).im = c.y_min) ∧
    (∀ py : ℕ, (pixelToComplex c (c.width - 1) py).re = c.x_max) ∧
    (∀ px : ℕ, (pixelToComplex c px (c.height - 1)).im = c.y_max) := by
  have hw1 : (1 : ℕ) ≤ c.width := le_trans (by norm_num) hw
  have hh1 : (1 : ℕ) ≤ c.height := le_trans (by norm_num) hh
  have hwq : ((c.width : ℚ)) - 1 ≠ 0 := by
    have : (2 : ℚ) ≤ (c.width : ℚ) := by exact_mod_cast hw
    intro h0
    nlinarith
  have hhq : ((c.height : ℚ)) - 1 ≠ 0 := by
    have : (2 : ℚ) ≤ (c.height : ℚ) := by exact_mod_cast hh
    intro h0
    nlinarith
  have hwc : ((c.width - 1 : ℕ) : ℚ) = (c.width : ℚ) - 1 := by
    push_cast [hw1]
    ring
  have hhc : ((c.height - 1 : ℕ) : ℚ) = (c.height : ℚ) - 1 := by
    push_cast [hh1]
    ring
  refine ⟨⟨hwq, hhq⟩, ?_, ?_, ?_, ?_⟩
  · intro py; simp [pixelToComplex]
  · intro px; simp [pixelToComplex]
  · intro py
    simp only [pixelToComplex, hwc, div_self hwq]
    ring
  · intro px
    simp only [pixelToComplex, hhc, div_self hhq]
    ring

theorem pixel_mapping_wellformed_witness :
    (RenderConfig.mappingDefined ⟨1, 2, 2, 1, 1, -5, 5, -5, 5⟩) ∧
    (∀ py : ℕ,
      (pixelToComplex ⟨1, 2, 2, 1, 1, -5, 5, -5, 5⟩ 0 py).re = (-5 : ℚ)) ∧
    (∀ px : ℕ,
      (pixelToComplex ⟨1, 2, 2, 1, 1, -5, 5, -5, 5⟩ px 0).im = (-5 : ℚ)) ∧
    (∀ py : ℕ,
      (pixelToComplex ⟨1, 2, 2, 1, 1, -5, 5, -5, 5⟩ (2 - 1) py).re = (5 : ℚ)) ∧
    (∀ px : ℕ,
      (pixelToComplex ⟨1, 2, 2, 1, 1, -5, 5, -5, 5⟩ px (2 - 1)).im = (5 : ℚ)) :=
  pixel_mapping_wellformed ⟨1, 2, 2, 1, 1, -5, 5, -5, 5⟩
    ⟨le_refl 1, by norm_num, by norm_num, le_refl 1, zero_lt_one⟩
    (le_refl 2) (le_refl 2)

/-- A root index returned by the first-match search is a valid index into
the root list. -/
theorem findRootIdx_lt_length {tol : ℚ} {z : Cplx} {l : List Cplx} {k : ℕ}
    (h : findRootIdx tol z l = some k) : k < l.length := by
  induction l generalizing k with
  | nil => simp [findRootIdx] at h
  | cons r rs ih =>
    rw [findRootIdx] at h
    split_ifs at h with hc
    · cases h
      simp
    · rcases Option.map_eq_some'.mp h with ⟨j, hj, rfl⟩
      have := ih hj
      simp only [List.length_cons]
      omega

/-- Range invariant of the Newton loop, for any remaining fuel: the root
index is `-1` or a valid index into the root list, and the reported
iteration count never exceeds the budget. -/
theorem newtonGo_bounds (rs : List Cplx) (n maxit : ℕ) (tol : ℚ) :
    ∀ (fuel : ℕ) (z : Cplx),
      -1 ≤ (newtonGo rs n maxit tol z fuel).1 ∧
      (newtonGo rs n maxit tol z fuel).1 < (rs.length : ℤ) ∧
      (newtonGo rs n maxit tol z fuel).2 ≤ maxit := by
  intro fuel
  induction fuel with
  | zero =>
    intro z
    rw [newtonGo]
    refine ⟨by norm_num, ?_, le_refl maxit⟩
    have h0 : (0 : ℤ) ≤ (rs.length : ℤ) := Int.natCast_nonneg _
    omega
  | succ fuel ih =>
    intro z
    rw [newtonGo]
    split_ifs with hd
    · refine ⟨by norm_num, ?_, Nat.sub_le _ _⟩
      have h0 : (0 : ℤ) ≤ (rs.length : ℤ) := Int.natCast_nonneg _
      omega
    · cases hfind : findRootIdx tol
        (Cplx.sub z (Cplx.div (newtonF n z) (newtonDeriv n z))) rs with
      | some k =>
        have hk := findRootIdx_lt_length hfind
        simp only [hfind]
        refine ⟨by omega, ?_, Nat.sub_le _ _⟩
        have : (k : ℤ) < (rs.length : ℤ) := by exact_mod_cast hk
        omega
      | none =>
        simp only [hfind]
        exact ih _

/-- C8: for every pixel the Root Solver's output satisfies
`root_index ∈ {-1, 0, …, n-1}` and `iteration_count ∈ [0, max_iterations]`
(`iteration_count ≥ 0` holds by its type). -/
theorem newton_result_in_range (rs : List Cplx) (n maxit : ℕ) (tol : ℚ)
    (z : Cplx) (hlen : rs.length = n) :
    -1 ≤ (newtonSolve rs n maxit tol z).1 ∧
    (newtonSolve rs n maxit tol z).1 < (n : ℤ) ∧
    (newtonSolve rs n maxit tol z).2 ≤ maxit := by
  have h := newtonGo_bounds rs n maxit tol maxit z
  rw [hlen] at h
  exact h

theorem newton_result_in_range_witness :
    -1 ≤ (newtonSolve [⟨1, 0⟩] 1 1 1 ⟨1, 0⟩).1 ∧
    (newtonSolve [⟨1, 0⟩] 1 1 1 ⟨1, 0⟩).1 < ((1 : ℕ) : ℤ) ∧
    (newtonSolve [⟨1, 0⟩] 1 1 1 ⟨1, 0⟩).2 ≤ 1 :=
  newton_result_in_range [⟨1, 0⟩] 1 1 1 ⟨1, 0⟩ rfl

/-- C6: a numerically zero derivative terminates the pixel's iteration
early with root index `-1` and no division (first conjunct: the result is
produced directly by the guard); budget exhaustion likewise yields `-1`
(second conjunct); and these are the only non-convergence paths — any
result other than `-1` comes from a root matched within tolerance (third
conjunct). -/
theorem newton_nonconvergence_paths :
    (∀ (rs : List Cplx) (n maxit : ℕ) (tol : ℚ) (z : Cplx) (fuel : ℕ),
      Cplx.normSq (newtonDeriv n z) = 0 →
        newtonGo rs n maxit tol z (fuel + 1) = (-1, maxit - (fuel + 1))) ∧
    (∀ (rs : List Cplx) (n maxit : ℕ) (tol : ℚ) (z : Cplx),
      newtonGo rs n maxit tol z 0 = (-1, maxit)) ∧
    (∀ (rs : List Cplx) (n maxit : ℕ) (tol : ℚ) (z : Cplx) (fuel : ℕ),
      (newtonGo rs n maxit tol z fuel).1 ≠ -1 →
      ∃ (w : Cplx) (k : ℕ), findRootIdx tol w rs = some k ∧
        (newtonGo rs n maxit tol z fuel).1 = (k : ℤ)) := by
  refine ⟨?_, ?_, ?_⟩
  · intro rs n maxit tol z fuel hd
    rw [newtonGo, if_pos hd]
  · intro rs n maxit tol z
    rw [newtonGo]
  · intro rs n maxit tol z fuel
    induction fuel generalizing z with
    | zero =>
      intro hne
      rw [newtonGo] at hne
      simp at hne
    | succ fuel ih =>
      intro hne
      rw [newtonGo] at hne ⊢
      split_ifs at hne ⊢ with hd
      · simp at hne
      · cases hfind : findRootIdx tol
          (Cplx.sub z (Cplx.div (newtonF n z) (newtonDeriv n z))) rs with
        | some k =>
          simp only [hfind]
          exact ⟨_, k, hfind, rfl⟩
        | none =>
          simp only [hfind] at hne ⊢
          exact ih _ hne

theorem newton_nonconvergence_paths_witness :
    newtonGo [] 2 1 1 ⟨0, 0⟩ (0 + 1) = (-1, 1 - (0 + 1)) :=
  newton_nonconvergence_paths.1 [] 2 1 1 ⟨0, 0⟩ 0
    (by simp [newtonDeriv, Cplx.smul, Cplx.cpow, Cplx.mul, Cplx.normSq])

/-- Each RGB channel of the conversion is monotone in the value `v` (for
fixed hue and saturation in range), since every channel is a truncation of
`v` times a fixed nonnegative coefficient. -/
theorem hsv_to_rgb_mono_value {h s va vb : ℝ} (hh : 0 ≤ h) (hs0 : 0 ≤ s)
    (hs1 : s ≤ 1) (hva : 0 ≤ va) (hv : va ≤ vb) :
    (hsv_to_rgb h s va).r ≤ (hsv_to_rgb h s vb).r ∧
    (hsv_to_rgb h s va).g ≤ (hsv_to_rgb h s vb).g ∧
    (hsv_to_rgb h s va).b ≤ (hsv_to_rgb h s vb).b := by
  have h255 : (0 : ℝ) ≤ 255 := by norm_num
  by_cases hs : s = 0
  · subst hs
    have H : ctrunc (va * 255) ≤ ctrunc (vb * 255) :=
      ctrunc_mono_of_nonneg (mul_nonneg hva h255)
        (mul_le_mul_of_nonneg_right hv h255)
    simp [hsv_to_rgb, H]
  · have hct : ctrunc (h * 6) = ⌊h * 6⌋ := ctrunc_of_nonneg (by positivity)
    have hf0 : (0 : ℝ) ≤ h * 6 - ((⌊h * 6⌋ : ℤ) : ℝ) :=
      sub_nonneg.mpr (Int.floor_le _)
    have hf1 : h * 6 - ((⌊h * 6⌋ : ℤ) : ℝ) ≤ 1 := by
      have := Int.lt_floor_add_one (h * 6)
      linarith
    have hc1 : (0 : ℝ) ≤ 1 - s := by linarith
    have hc2 : (0 : ℝ) ≤ 1 - s * (h * 6 - ((⌊h * 6⌋ : ℤ) : ℝ)) := by
      have := mul_le_one₀ hs1 hf0 hf1
      linarith
    have hc3 : (0 : ℝ) ≤ 1 - s * (1 - (h * 6 - ((⌊h * 6⌋ : ℤ) : ℝ))) := by
      have := mul_le_one₀ hs1
        (by linarith : (0:ℝ) ≤ 1 - (h * 6 - ((⌊h * 6⌋ : ℤ) : ℝ)))
        (by linarith : 1 - (h * 6 - ((⌊h * 6⌋ : ℤ) : ℝ)) ≤ 1)
      linarith
    have Hv : ctrunc (va * 255) ≤ ctrunc (vb * 255) :=
      ctrunc_mono_of_nonneg (mul_nonneg hva h255)
        (mul_le_mul_of_nonneg_right hv h255)
    have Hp : ctrunc (va * (1 - s) * 255) ≤ ctrunc (vb * (1 - s) * 255) :=
      ctrunc_mono_of_nonneg (mul_nonneg (mul_nonneg hva hc1) h255)
        (mul_le_mul_of_nonneg_right (mul_le_mul_of_nonneg_right hv hc1) h255)
    have Hq : ctrunc (va * (1 - s * (h * 6 - ((⌊h * 6⌋ : ℤ) : ℝ))) * 255) ≤
        ctrunc (vb * (1 - s * (h * 6 - ((⌊h * 6⌋ : ℤ) : ℝ))) * 255) :=
      ctrunc_mono_of_nonneg (mul_nonneg (mul_nonneg hva hc2) h255)
        (mul_le_mul_of_nonneg_right (mul_le_mul_of_nonneg_right hv hc2) h255)
    have Ht : ctrunc (va * (1 - s * (1 - (h * 6 - ((⌊h * 6⌋ : ℤ) : ℝ)))) * 255) ≤
        ctrunc (vb * (1 - s * (1 - (h * 6 - ((⌊h * 6⌋ : ℤ) : ℝ)))) * 255) :=
      ctrunc_mono_of_nonneg (mul_nonneg (mul_nonneg hva hc3) h255)
        (mul_le_mul_of_nonneg_right (mul_le_mul_of_nonneg_right hv hc3) h255)
    simp only [hsv_to_rgb, if_neg hs, hct]
    split_ifs <;> exact ⟨by assumption, by assumption, by assumption⟩

/-- C9: with `gamma = 1` and a fixed converged root index, the Colorizer's
brightness (the value channel, i.e. the maximal RGB channel) is
antitone in the iteration count: `a ≤ b` gives the pixel computed with `b`
iterations a value channel ≤ that of the pixel computed with `a`. -/
theorem colorize_brightness_monotone (n m : ℕ) (ri : ℤ) (a b : ℕ)
    (hm : 1 ≤ m) (hri : 0 ≤ ri) (hab : a ≤ b) (hbm : b ≤ m) :
    (colorize n m 1 ri b).valueChannel ≤ (colorize n m 1 ri a).valueChannel := by
  have hne : ri ≠ -1 := by omega
  have hm0 : (0 : ℝ) < (m : ℝ) := by exact_mod_cast hm
  have hvb0 : (0 : ℝ) ≤ 1 - (b : ℝ) / (m : ℝ) := by
    rw [sub_nonneg, div_le_one hm0]
    exact_mod_cast hbm
  have hvv : 1 - (b : ℝ) / (m : ℝ) ≤ 1 - (a : ℝ) / (m : ℝ) := by
    have hd : (a : ℝ) / (m : ℝ) ≤ (b : ℝ) / (m : ℝ) := by gcongr
    linarith
  have hh : (0 : ℝ) ≤ (ri : ℝ) / (n : ℝ) :=
    div_nonneg (by exact_mod_cast hri) (Nat.cast_nonneg n)
  have H := @hsv_to_rgb_mono_value ((ri : ℝ) / (n : ℝ)) (9 / 10)
    (1 - (b : ℝ) / (m : ℝ)) (1 - (a : ℝ) / (m : ℝ)) hh (by norm_num)
    (by norm_num) hvb0 hvv
  simp only [colorize, if_neg hne, Real.rpow_one]
  simp only [RGB.valueChannel]
  exact max_le_max H.1 (max_le_max H.2.1 H.2.2)

theorem colorize_brightness_monotone_witness :
    (colorize 5 100 1 0 2).valueChannel ≤ (colorize 5 100 1 0 1).valueChannel :=
  colorize_brightness_monotone 5 100 0 1 2 (by decide) (by decide) (by decide)
    (by decide)
